import Mathlib

/-!
Verification of the Internship-Sioux notebooks (Bayesian grey-box system
identification for thermal effects).  The repository consists of four
notebooks: a Variational-Bayes (BayesPy) notebook on 2- and 3-block lumped
thermal models, an MCMC (Turing) notebook on a 3-block lumped model with
convection and sinusoidal input heat, a UKF (ForneyLab) notebook on a single
block, and a pedagogical coin/bandit notebook.

We embed the repository-defined helpers shallowly: machine floats are
modelled by `ℚ` (all the properties at issue are exact algebraic identities),
random draws are modelled as explicit input streams, transcendental library
functions (`sin`, `sqrt`, Beta quantiles) are abstracted as function
parameters, and Julia array mutation (for the bandit loop) is modelled by an
explicit append-only store of allocated cells.
-/

namespace VB2

/-- Conduction matrix `K = [[-k, k], [k, -k]]` of the 2-block system
(VB notebook, `np.array([[-k, k], [k, -k]])`). -/
def Kmat (k : ℚ) : Matrix (Fin 2) (Fin 2) ℚ :=
  Matrix.of ![![-k, k], ![k, -k]]

/-- Heat-capacity matrix `Mconst = np.diag([mcp_1, mcp_2])`. -/
def Mconst (m1 m2 : ℚ) : Matrix (Fin 2) (Fin 2) ℚ :=
  Matrix.diagonal ![m1, m2]

/-- The inverse `np.linalg.inv(Mconst)` of the diagonal heat-capacity matrix:
the diagonal matrix of reciprocals.  The theorem for C1 checks that this is a
two-sided inverse of `Mconst` when the diagonal entries are nonzero. -/
def MconstInv (m1 m2 : ℚ) : Matrix (Fin 2) (Fin 2) ℚ :=
  Matrix.diagonal ![m1⁻¹, m2⁻¹]

/-- Forward-difference discretisation `K ↦ A = I + Δt M⁻¹ K`
(the construction of the transition matrix `a` in the VB notebook,
applied there to `Kmat k`). -/
def disc (m1 m2 Dt : ℚ) (K : Matrix (Fin 2) (Fin 2) ℚ) :
    Matrix (Fin 2) (Fin 2) ℚ :=
  1 + Dt • (MconstInv m1 m2 * K)

/-- Transition matrix `a = np.identity(D) + Dt * matmul(inv(Mconst), K)`. -/
def a (k m1 m2 Dt : ℚ) : Matrix (Fin 2) (Fin 2) ℚ :=
  disc m1 m2 Dt (Kmat k)

/-- Back-transformation `inferred_K = np.matmul(Mconst, A - np.identity(2)) / Dt`. -/
def Khat (m1 m2 Dt : ℚ) (A : Matrix (Fin 2) (Fin 2) ℚ) :
    Matrix (Fin 2) (Fin 2) ℚ :=
  Dt⁻¹ • (Mconst m1 m2 * (A - 1))

/-- Averaged point estimate
`inferred_k = (-K[0,0] + K[0,1] + K[1,0] - K[1,1]) / 4`. -/
def khat (K : Matrix (Fin 2) (Fin 2) ℚ) : ℚ :=
  (-K 0 0 + K 0 1 + K 1 0 - K 1 1) / 4

end VB2

namespace VB3

/-- Conduction matrix of the 3-block system
`np.array([[-k12, k12, 0], [k12, -(k12 + k23), k23], [0, k23, -k23]])`. -/
def Kmat (k12 k23 : ℚ) : Matrix (Fin 3) (Fin 3) ℚ :=
  Matrix.of ![![-k12, k12, 0], ![k12, -(k12 + k23), k23], ![0, k23, -k23]]

/-- Heat-capacity matrix `Mconst = np.diag([mcp_1, mcp_2, mcp_3])`. -/
def Mconst (m1 m2 m3 : ℚ) : Matrix (Fin 3) (Fin 3) ℚ :=
  Matrix.diagonal ![m1, m2, m3]

/-- `np.linalg.inv(Mconst)` for the 3-block diagonal heat-capacity matrix. -/
def MconstInv (m1 m2 m3 : ℚ) : Matrix (Fin 3) (Fin 3) ℚ :=
  Matrix.diagonal ![m1⁻¹, m2⁻¹, m3⁻¹]

/-- Forward-difference discretisation `K ↦ A = I + Δt M⁻¹ K` (3-block). -/
def disc (m1 m2 m3 Dt : ℚ) (K : Matrix (Fin 3) (Fin 3) ℚ) :
    Matrix (Fin 3) (Fin 3) ℚ :=
  1 + Dt • (MconstInv m1 m2 m3 * K)

/-- Transition matrix `a` of the 3-block system. -/
def a (k12 k23 m1 m2 m3 Dt : ℚ) : Matrix (Fin 3) (Fin 3) ℚ :=
  disc m1 m2 m3 Dt (Kmat k12 k23)

/-- Back-transformation `inferred_K = np.matmul(Mconst, A - np.identity(3)) / Dt`. -/
def Khat (m1 m2 m3 Dt : ℚ) (A : Matrix (Fin 3) (Fin 3) ℚ) :
    Matrix (Fin 3) (Fin 3) ℚ :=
  Dt⁻¹ • (Mconst m1 m2 m3 * (A - 1))

/-- Averaged point estimate
`inferred_k12 = (-K[0,0] + K[1,0] + K[0,1]) / 3`. -/
def k12hat (K : Matrix (Fin 3) (Fin 3) ℚ) : ℚ :=
  (-K 0 0 + K 1 0 + K 0 1) / 3

/-- Averaged point estimate
`inferred_k23 = (-K[2,2] + K[2,1] + K[1,2]) / 3`. -/
def k23hat (K : Matrix (Fin 3) (Fin 3) ℚ) : ℚ :=
  (-K 2 2 + K 2 1 + K 1 2) / 3

end VB3

/-- C1: the point-estimate back-transformation recovers the physical
conductances exactly.  For `Δt ≠ 0` and nonzero heat capacities:
`MconstInv` really is the matrix inverse; `A ↦ M (A - I) / Δt` is a two-sided
inverse of the discretisation `K ↦ I + Δt M⁻¹ K`; and the averaged point
estimates applied to the true transition matrices recover `k` (2-block)
and `k12`, `k23` (3-block) exactly. -/
theorem C1_back_transformation_exact
    (k k12 k23 m1 m2 m3 Dt : ℚ)
    (hDt : Dt ≠ 0) (h1 : m1 ≠ 0) (h2 : m2 ≠ 0) (h3 : m3 ≠ 0) :
    VB2.Mconst m1 m2 * VB2.MconstInv m1 m2 = 1 ∧
    (∀ K, VB2.Khat m1 m2 Dt (VB2.disc m1 m2 Dt K) = K) ∧
    (∀ A, VB2.disc m1 m2 Dt (VB2.Khat m1 m2 Dt A) = A) ∧
    VB2.khat (VB2.Khat m1 m2 Dt (VB2.a k m1 m2 Dt)) = k ∧
    VB3.Mconst m1 m2 m3 * VB3.MconstInv m1 m2 m3 = 1 ∧
    (∀ K, VB3.Khat m1 m2 m3 Dt (VB3.disc m1 m2 m3 Dt K) = K) ∧
    (∀ A, VB3.disc m1 m2 m3 Dt (VB3.Khat m1 m2 m3 Dt A) = A) ∧
    VB3.k12hat (VB3.Khat m1 m2 m3 Dt (VB3.a k12 k23 m1 m2 m3 Dt)) = k12 ∧
    VB3.k23hat (VB3.Khat m1 m2 m3 Dt (VB3.a k12 k23 m1 m2 m3 Dt)) = k23 := by
  refine ⟨?_, ?_, ?_, ?_, ?_, ?_, ?_, ?_, ?_⟩
  · ext i j
    fin_cases i <;> fin_cases j <;>
      simp [VB2.Mconst, VB2.MconstInv, Matrix.mul_apply, Matrix.diagonal,
        Matrix.one_apply, Fin.sum_univ_two] <;> field_simp
  · intro K
    ext i j
    fin_cases i <;> fin_cases j <;>
      simp [VB2.Khat, VB2.disc, VB2.Mconst, VB2.MconstInv, Matrix.mul_apply,
        Matrix.diagonal, Matrix.one_apply, Fin.sum_univ_two,
        Matrix.add_apply, Matrix.sub_apply, Matrix.smul_apply] <;>
      field_simp <;> ring
  · intro A
    ext i j
    fin_cases i <;> fin_cases j <;>
      simp [VB2.Khat, VB2.disc, VB2.Mconst, VB2.MconstInv, Matrix.mul_apply,
        Matrix.diagonal, Matrix.one_apply, Fin.sum_univ_two,
        Matrix.add_apply, Matrix.sub_apply, Matrix.smul_apply] <;>
      field_simp <;> ring
  · simp [VB2.khat, VB2.Khat, VB2.a, VB2.disc, VB2.Kmat, VB2.Mconst,
      VB2.MconstInv, Matrix.mul_apply, Matrix.diagonal, Matrix.one_apply,
      Fin.sum_univ_two, Matrix.add_apply, Matrix.sub_apply, Matrix.smul_apply]
    field_simp
    ring
  · ext i j
    fin_cases i <;> fin_cases j <;>
      simp [VB3.Mconst, VB3.MconstInv, Matrix.mul_apply, Matrix.diagonal,
        Matrix.one_apply, Fin.sum_univ_three] <;> field_simp
  · intro K
    ext i j
    fin_cases i <;> fin_cases j <;>
      simp [VB3.Khat, VB3.disc, VB3.Mconst, VB3.MconstInv, Matrix.mul_apply,
        Matrix.diagonal, Matrix.one_apply, Fin.sum_univ_three,
        Matrix.add_apply, Matrix.sub_apply, Matrix.smul_apply] <;>
      field_simp <;> ring
  · intro A
    ext i j
    fin_cases i <;> fin_cases j <;>
      simp [VB3.Khat, VB3.disc, VB3.Mconst, VB3.MconstInv, Matrix.mul_apply,
        Matrix.diagonal, Matrix.one_apply, Fin.sum_univ_three,
        Matrix.add_apply, Matrix.sub_apply, Matrix.smul_apply] <;>
      field_simp <;> ring
  · simp [VB3.k12hat, VB3.Khat, VB3.a, VB3.disc, VB3.Kmat, VB3.Mconst,
      VB3.MconstInv, Matrix.mul_apply, Matrix.diagonal, Matrix.one_apply,
      Fin.sum_univ_three, Matrix.add_apply, Matrix.sub_apply,
      Matrix.smul_apply]
    field_simp
    ring
  · simp [VB3.k23hat, VB3.Khat, VB3.a, VB3.disc, VB3.Kmat, VB3.Mconst,
      VB3.MconstInv, Matrix.mul_apply, Matrix.diagonal, Matrix.one_apply,
      Fin.sum_univ_three, Matrix.add_apply, Matrix.sub_apply,
      Matrix.smul_apply]
    field_simp
    ring

/-- Witness for C1 at the notebook's own constants
`k = 5`, `k12 = 5`, `k23 = 4`, `mcp = (2000, 1500, 2500)`, `Δt = 1`. -/
theorem C1_back_transformation_exact_witness :
    ((1 : ℚ) ≠ 0 ∧ (2000 : ℚ) ≠ 0 ∧ (1500 : ℚ) ≠ 0 ∧ (2500 : ℚ) ≠ 0) ∧
    VB2.khat (VB2.Khat 2000 1500 1 (VB2.a 5 2000 1500 1)) = 5 ∧
    VB3.k12hat (VB3.Khat 2000 1500 2500 1 (VB3.a 5 4 2000 1500 2500 1)) = 5 ∧
    VB3.k23hat (VB3.Khat 2000 1500 2500 1 (VB3.a 5 4 2000 1500 2500 1)) = 4 := by
  have h := C1_back_transformation_exact 5 5 4 2000 1500 2500 1
    (by norm_num) (by norm_num) (by norm_num) (by norm_num)
  exact ⟨⟨by norm_num, by norm_num, by norm_num, by norm_num⟩,
    h.2.2.2.1, h.2.2.2.2.2.2.2.1, h.2.2.2.2.2.2.2.2⟩

namespace Gen

/-- Process-noise standard deviation: `std_noise_x = 0` in both the 2-block
and the 3-block experiment of the VB notebook. -/
def std_noise_x : ℚ := 0

/-- Observation-noise standard deviation: `std_noise_y = 1` in both
experiments of the VB notebook. -/
def std_noise_y : ℚ := 1

/-- Latent trajectory generated by the VB notebook's loop
`x[n + 1] = np.dot(a, x[n]) + std_noise_x * np.random.randn(D)`, with the
noise draws modelled as an explicit stream `r`.  The process-noise scale is a
parameter `stdx`; the notebook instantiates it with `std_noise_x`. -/
def genX {D : ℕ} (stdx : ℚ) (a : Matrix (Fin D) (Fin D) ℚ)
    (x0 : Fin D → ℚ) (r : ℕ → Fin D → ℚ) : ℕ → Fin D → ℚ
  | 0 => x0
  | n + 1 => a.mulVec (genX stdx a x0 r n) + stdx • r n

/-- Observations `y[n] = x[n] + std_noise_y * np.random.randn(M)`, with the
observation-noise draws modelled as the stream `s`. -/
def genY {D : ℕ} (stdx stdy : ℚ) (a : Matrix (Fin D) (Fin D) ℚ)
    (x0 : Fin D → ℚ) (r s : ℕ → Fin D → ℚ) (n : ℕ) : Fin D → ℚ :=
  genX stdx a x0 r n + stdy • s n

end Gen

/-- C2: the synthetic data generator satisfies the state recurrence
`x[n+1] = a·x[n] + std_noise_x · r[n]` and the observation equation
`y[n] = x[n] + std_noise_y · s[n]`; the source sets `std_noise_x = 0`, so
the latent trajectory is exactly `x[n] = aⁿ · x[0]` and only the
observations carry injected noise. -/
theorem C2_noise_free_latent {D : ℕ} (stdx stdy : ℚ)
    (a : Matrix (Fin D) (Fin D) ℚ) (x0 : Fin D → ℚ) (r s : ℕ → Fin D → ℚ) :
    (∀ n, Gen.genX stdx a x0 r (n + 1)
        = a.mulVec (Gen.genX stdx a x0 r n) + stdx • r n) ∧
    (∀ n, Gen.genY stdx stdy a x0 r s n
        = Gen.genX stdx a x0 r n + stdy • s n) ∧
    Gen.std_noise_x = 0 ∧
    (∀ n, Gen.genX Gen.std_noise_x a x0 r n = (a ^ n).mulVec x0) := by
  refine ⟨fun n => rfl, fun n => rfl, rfl, ?_⟩
  intro n
  induction n with
  | zero => simp [Gen.genX]
  | succ n ih =>
      simp only [Gen.std_noise_x] at ih
      simp only [Gen.genX, Gen.std_noise_x, ih, zero_smul, add_zero,
        Matrix.mulVec_mulVec, pow_succ']

namespace MCMC

/-- The 16-entry parameter vector unpacked at the top of `LSSM_lump` in the
MCMC notebook:
`mcp_1, mcp_2, mcp_3, A_1, A_2, A_3, B_1, B_2, B_3, ω_1, ω_2, ω_3, T_a, k12, k23, h_a = p`. -/
structure Params where
  mcp_1 : ℚ
  mcp_2 : ℚ
  mcp_3 : ℚ
  A_1 : ℚ
  A_2 : ℚ
  A_3 : ℚ
  B_1 : ℚ
  B_2 : ℚ
  B_3 : ℚ
  ω_1 : ℚ
  ω_2 : ℚ
  ω_3 : ℚ
  T_a : ℚ
  k12 : ℚ
  k23 : ℚ
  h_a : ℚ

/-- Input heat `Φ(B, ω, t) = B * sin(ω * t)`.  Julia's transcendental `sin`
is abstracted as the function parameter `sinF`: every property at issue is
algebraic in the value `sin(ω t)`. -/
def Φ (sinF : ℚ → ℚ) (B ω t : ℚ) : ℚ := B * sinF (ω * t)

/-- The ODE right-hand side `LSSM_lump(dT, T, p, t)` of the MCMC notebook.
Julia fills `dT` at 1-based indices `dT[1..3]`; here component `i : Fin 3`
is the source's `dT[i+1]`.  Exactly as in the source, each component is
assembled as conduction term + convection term + input term, each term
divided by the block's heat capacity. -/
def LSSM_lump (sinF : ℚ → ℚ) (p : Params) (T : Fin 3 → ℚ) (t : ℚ) :
    Fin 3 → ℚ :=
  ![p.k12 * (T 1 - T 0) / p.mcp_1
      + p.h_a * p.A_1 * (p.T_a - T 0) / p.mcp_1
      + Φ sinF p.B_1 p.ω_1 t / p.mcp_1,
    (p.k12 * (T 0 - T 1) + p.k23 * (T 2 - T 1)) / p.mcp_2
      + p.h_a * p.A_2 * (p.T_a - T 1) / p.mcp_2
      + Φ sinF p.B_2 p.ω_2 t / p.mcp_2,
    p.k23 * (T 1 - T 2) / p.mcp_3
      + p.h_a * p.A_3 * (p.T_a - T 2) / p.mcp_3
      + Φ sinF p.B_3 p.ω_3 t / p.mcp_3]

end MCMC

/-- C3: `LSSM_lump` computes exactly the stated lumped thermal model on each
component (indices shifted to 0-based), and equals the sum of the conduction
term `M⁻¹ K T`, the convection term and the sinusoidal input heat. -/
theorem C3_LSSM_lump_formula (sinF : ℚ → ℚ) (p : MCMC.Params)
    (T : Fin 3 → ℚ) (t : ℚ) :
    MCMC.LSSM_lump sinF p T t 0
      = (p.k12 * (T 1 - T 0) + p.h_a * p.A_1 * (p.T_a - T 0)
          + p.B_1 * sinF (p.ω_1 * t)) / p.mcp_1 ∧
    MCMC.LSSM_lump sinF p T t 1
      = (p.k12 * (T 0 - T 1) + p.k23 * (T 2 - T 1)
          + p.h_a * p.A_2 * (p.T_a - T 1)
          + p.B_2 * sinF (p.ω_2 * t)) / p.mcp_2 ∧
    MCMC.LSSM_lump sinF p T t 2
      = (p.k23 * (T 1 - T 2) + p.h_a * p.A_3 * (p.T_a - T 2)
          + p.B_3 * sinF (p.ω_3 * t)) / p.mcp_3 ∧
    (∀ i, MCMC.LSSM_lump sinF p T t i
      = ((Matrix.diagonal ![p.mcp_1⁻¹, p.mcp_2⁻¹, p.mcp_3⁻¹]
            * VB3.Kmat p.k12 p.k23).mulVec T) i
        + ![p.h_a * p.A_1 * (p.T_a - T 0) / p.mcp_1,
            p.h_a * p.A_2 * (p.T_a - T 1) / p.mcp_2,
            p.h_a * p.A_3 * (p.T_a - T 2) / p.mcp_3] i
        + ![MCMC.Φ sinF p.B_1 p.ω_1 t / p.mcp_1,
            MCMC.Φ sinF p.B_2 p.ω_2 t / p.mcp_2,
            MCMC.Φ sinF p.B_3 p.ω_3 t / p.mcp_3] i) := by
  refine ⟨?_, ?_, ?_, ?_⟩
  · simp [MCMC.LSSM_lump, MCMC.Φ]; ring
  · simp [MCMC.LSSM_lump, MCMC.Φ]; ring
  · simp [MCMC.LSSM_lump, MCMC.Φ]; ring
  · intro i
    fin_cases i <;>
      simp [MCMC.LSSM_lump, MCMC.Φ, VB3.Kmat, Matrix.mulVec,
        Matrix.mul_apply, Matrix.diagonal, Matrix.dotProduct,
        Fin.sum_univ_three] <;> ring

namespace MCMC

/-- `MSE(true_θ, post_mean, post_var) = (post_mean - true_θ)^2 + post_var`
as defined in the MCMC notebook. -/
def MSE (true_θ post_mean post_var : ℚ) : ℚ :=
  (post_mean - true_θ) ^ 2 + post_var

end MCMC

namespace UKF

/-- `MSE(true_θ, post_mean, post_var) = (post_mean - true_θ)^2 + post_var`
as defined in the UKF notebook. -/
def MSE (true_θ post_mean post_var : ℚ) : ℚ :=
  (post_mean - true_θ) ^ 2 + post_var

end UKF

/-- C4: the MSE helper computes squared bias plus variance, the MCMC and UKF
definitions are the same function, and for `v ≥ 0` the result is nonnegative
and vanishes exactly when `m = t` and `v = 0`. -/
theorem C4_MSE_bias_variance (t m v : ℚ) (hv : 0 ≤ v) :
    MCMC.MSE t m v = (m - t) ^ 2 + v ∧
    MCMC.MSE = UKF.MSE ∧
    0 ≤ MCMC.MSE t m v ∧
    (MCMC.MSE t m v = 0 ↔ m = t ∧ v = 0) := by
  have hsq : 0 ≤ (m - t) ^ 2 := sq_nonneg _
  refine ⟨rfl, rfl, by unfold MCMC.MSE; linarith, ?_, ?_⟩
  · intro h
    unfold MCMC.MSE at h
    have hv0 : v = 0 := by nlinarith
    have hm : (m - t) ^ 2 = 0 := by linarith
    have hmt : m - t = 0 := (pow_eq_zero_iff (by norm_num : 2 ≠ 0)).mp hm
    exact ⟨by linarith, hv0⟩
  · rintro ⟨rfl, rfl⟩
    simp [MCMC.MSE]

/-- Witness for C4 at `t = 3`, `m = 3`, `v = 0`. -/
theorem C4_MSE_bias_variance_witness :
    (0 : ℚ) ≤ 0 ∧ (MCMC.MSE 3 3 0 = 0 ↔ (3 : ℚ) = 3 ∧ (0 : ℚ) = 0) :=
  ⟨le_refl 0, (C4_MSE_bias_variance 3 3 0 (le_refl 0)).2.2.2⟩

namespace UKF

/-- Time step `Δt = 5e1` (UKF notebook). -/
def Δt : ℚ := 50

/-- Block mass `m = 0.6`. -/
def m : ℚ := 6 / 10

/-- Specific heat capacity `cp = 1.5e3`. -/
def cp : ℚ := 1500

/-- Convective surface area `A = 5e-2`. -/
def A : ℚ := 5 / 100

/-- Ambient temperature `T_a = 297.`. -/
def T_a : ℚ := 297

/-- Convection coefficient `h_a = 10.`. -/
def h_a : ℚ := 10

/-- Transition coefficient `real_θ = 1 - Δt * h_a * A / (m * cp)`. -/
def real_θ : ℚ := 1 - Δt * h_a * A / (m * cp)

/-- The simulation recurrence `T[n + 1] = θ * T[n] + (1 - θ) * T_a`,
for arbitrary transition coefficient, ambient and initial temperature. -/
def sim (θ Ta T0 : ℚ) : ℕ → ℚ
  | 0 => T0
  | n + 1 => θ * sim θ Ta T0 n + (1 - θ) * Ta

/-- The simulated temperature sequence of the UKF notebook: Julia's
`T_[1] = 255.` and loop `T_[n + 1] = real_θ * T_[n] + (1 - real_θ) * T_a`,
shifted to 0-based indexing. -/
def T_ : ℕ → ℚ
  | 0 => 255
  | n + 1 => real_θ * T_ n + (1 - real_θ) * T_a

end UKF

/-- C5: the simulated temperature satisfies the closed form
`T[n] = T_a + θⁿ (T[0] - T_a)`; for `0 < θ < 1` and `T[0] ≠ T_a` the
distance `|T[n] - T_a|` strictly decreases, so the block monotonically
equilibrates toward the ambient temperature.  The notebook's sequence `T_`
is `sim` at `real_θ = 35/36 ∈ (0, 1)`, `T_a = 297` and `T[0] = 255 ≠ T_a`. -/
theorem C5_equilibration (θ Ta T0 : ℚ) (h0 : 0 < θ) (h1 : θ < 1)
    (hne : T0 ≠ Ta) :
    (∀ n, UKF.sim θ Ta T0 n = Ta + θ ^ n * (T0 - Ta)) ∧
    (∀ n, |UKF.sim θ Ta T0 (n + 1) - Ta| < |UKF.sim θ Ta T0 n - Ta|) ∧
    (∀ n, UKF.T_ n = UKF.sim UKF.real_θ UKF.T_a 255 n) ∧
    UKF.real_θ = 35 / 36 ∧ 0 < UKF.real_θ ∧ UKF.real_θ < 1 ∧
    (255 : ℚ) ≠ UKF.T_a := by
  have hcf : ∀ n, UKF.sim θ Ta T0 n = Ta + θ ^ n * (T0 - Ta) := by
    intro n
    induction n with
    | zero => simp [UKF.sim]
    | succ n ih => simp only [UKF.sim, ih, pow_succ]; ring
  refine ⟨hcf, ?_, ?_, ?_, ?_, ?_, ?_⟩
  · intro n
    have hd : T0 - Ta ≠ 0 := sub_ne_zero.mpr hne
    have habs : 0 < |T0 - Ta| := abs_pos.mpr hd
    rw [hcf, hcf]
    have e : ∀ j : ℕ, |Ta + θ ^ j * (T0 - Ta) - Ta| = θ ^ j * |T0 - Ta| := by
      intro j
      rw [add_sub_cancel_left, abs_mul, abs_pow, abs_of_pos h0]
    rw [e, e]
    have hp : θ ^ (n + 1) < θ ^ n :=
      pow_lt_pow_right_of_lt_one h0 h1 (Nat.lt_succ_self n)
    exact mul_lt_mul_of_pos_right hp habs
  · intro n
    induction n with
    | zero => rfl
    | succ n ih => simp only [UKF.T_, UKF.sim, ih]
  · norm_num [UKF.real_θ, UKF.Δt, UKF.h_a, UKF.A, UKF.m, UKF.cp]
  · norm_num [UKF.real_θ, UKF.Δt, UKF.h_a, UKF.A, UKF.m, UKF.cp]
  · norm_num [UKF.real_θ, UKF.Δt, UKF.h_a, UKF.A, UKF.m, UKF.cp]
  · norm_num [UKF.T_a]

/-- Witness for C5 at `θ = 1/2`, `T_a = 0`, `T[0] = 1`. -/
theorem C5_equilibration_witness :
    ((0 : ℚ) < 1 / 2 ∧ (1 / 2 : ℚ) < 1 ∧ (1 : ℚ) ≠ 0) ∧
    (∀ n, UKF.sim (1 / 2) 0 1 n = 0 + (1 / 2) ^ n * (1 - 0)) :=
  ⟨⟨by norm_num, by norm_num, by norm_num⟩,
    (C5_equilibration (1 / 2) 0 1 (by norm_num) (by norm_num)
      (by norm_num)).1⟩

namespace Coin

/-- A Beta prior/posterior parameter pair `[α, β]` (a Julia 2-element
vector). -/
abbrev Pair := ℚ × ℚ

/-- `post_recursive(prior, y::Bool) = prior .+ [y, 1 - y]`; the broadcast
`.+` builds a fresh pair from the values, so as a value-level function it is
pure. -/
def post_recursive (prior : Pair) (y : Bool) : Pair :=
  (prior.1 + (if y then 1 else 0), prior.2 + (1 - (if y then 1 else 0)))

/-- `post_batch(prior, data) = prior .+ [sum(data), length(data) - sum(data)]`. -/
def post_batch (prior : Pair) (data : List Bool) : Pair :=
  (prior.1 + (data.count true : ℚ),
   prior.2 + ((data.length : ℚ) - (data.count true : ℚ)))

/-- A heap of allocated Julia pair-arrays.  An address is an index into the
store; allocation appends a cell and never overwrites one. -/
abbrev Store := List Pair

/-- Allocate a fresh cell holding `v`: returns the grown store and the fresh
address. -/
def alloc (σ : Store) (v : Pair) : Store × ℕ := (σ ++ [v], σ.length)

/-- The list of pairs denoted by a Julia vector-of-vectors: dereference each
address. -/
def deref (σ : Store) (posts : List ℕ) : List Pair :=
  posts.map (fun addr => σ.getD addr (0, 0))

/-- One iteration of the loop bodies of `explore_and_exploit` and
`explore_and_exploit_plot`: choose an arm from the dereferenced posteriors
(the Beta-quantile computation of `choose_arm` is abstracted as `chooser`,
and indices are 0-based here), evaluate
`post_recursive(posts[arm], success)` — a fresh pair — allocate it, and
redirect entry `arm` of the outer list to the fresh address.  Julia's
`posts[arm] = ...` replaces a reference in the (copied) outer list; no
existing cell is written. -/
def step (chooser : List Pair → ℕ) (succ : Bool)
    (st : Store × List ℕ) : Store × List ℕ :=
  let arm := chooser (deref st.1 st.2)
  let v := post_recursive (st.1.getD (st.2.getD arm 0) (0, 0)) succ
  let alloc_result := alloc st.1 v
  (alloc_result.1, st.2.set arm alloc_result.2)

/-- The loop of `explore_and_exploit` (the `@gif` loop of
`explore_and_exploit_plot` performs the same posterior updates): starting
from `posts = copy(priors)` — the same addresses in a fresh outer list —
fold `step` over the stream of drawn successes. -/
def run (chooser : List Pair → ℕ) (succs : List Bool)
    (σ : Store) (priors : List ℕ) : Store × List ℕ :=
  succs.foldl (fun st succ => step chooser succ st) (σ, priors)

/-- The store only grows during a bandit run: the final store extends the
initial one. -/
theorem run_store_grows (chooser : List Pair → ℕ) (succs : List Bool) :
    ∀ σ posts, ∃ tail, (run chooser succs σ posts).1 = σ ++ tail := by
  induction succs with
  | nil => exact fun σ posts => ⟨[], by simp [run]⟩
  | cons succ rest ih =>
      intro σ posts
      obtain ⟨tail, htail⟩ :=
        ih (step chooser succ (σ, posts)).1 (step chooser succ (σ, posts)).2
      refine ⟨[post_recursive (σ.getD (posts.getD
        (chooser (deref σ posts)) 0) (0, 0)) succ] ++ tail, ?_⟩
      have hrun : (run chooser (succ :: rest) σ posts)
          = run chooser rest (step chooser succ (σ, posts)).1
              (step chooser succ (σ, posts)).2 := by
        simp [run, List.foldl_cons]
      rw [hrun, htail]
      simp [step, alloc, List.append_assoc]

end Coin

/-- C6: the bandit simulations are stateless with respect to their `priors`
argument: after any run of the loop of `explore_and_exploit` (equally, of
`explore_and_exploit_plot`), every cell reachable from the original `priors`
addresses is unchanged, so the list of pairs denoted by `priors` equals its
value before the call; moreover a single step never writes an existing
cell. -/
theorem C6_priors_unchanged (chooser : List Coin.Pair → ℕ)
    (succs : List Bool) (σ : Coin.Store) (priors : List ℕ)
    (hvalid : ∀ addr ∈ priors, addr < σ.length) :
    Coin.deref (Coin.run chooser succs σ priors).1 priors
      = Coin.deref σ priors ∧
    (∀ succ posts addr, addr < σ.length →
      (Coin.step chooser succ (σ, posts)).1.getD addr (0, 0)
        = σ.getD addr (0, 0)) := by
  constructor
  · obtain ⟨tail, htail⟩ := Coin.run_store_grows chooser succs σ priors
    rw [htail]
    unfold Coin.deref
    refine List.map_congr_left ?_
    intro addr haddr
    exact List.getD_append _ _ _ _ (hvalid addr haddr)
  · intro succ posts addr haddr
    simp only [Coin.step, Coin.alloc]
    exact List.getD_append _ _ _ _ haddr

/-- Witness for C6: one step on a one-arm store. -/
theorem C6_priors_unchanged_witness :
    (∀ addr ∈ [0], addr < ([((1 : ℚ), (1 : ℚ))] : Coin.Store).length) ∧
    Coin.deref (Coin.run (fun _ => 0) [true] [(1, 1)] [0]).1 [0]
      = Coin.deref [(1, 1)] [0] :=
  ⟨by decide,
    (C6_priors_unchanged (fun _ => 0) [true] [(1, 1)] [0] (by decide)).1⟩

namespace UKF

/-- `generate_data(rng, n, states, τ) = states + randn(rng, n) * inv(sqrt(τ))`
from the UKF notebook: the `randn` draws are the stream `noise` and the
transcendental `sqrt` is abstracted as `sqrtF`. -/
def generate_data (n : ℕ) (noise : Fin n → ℚ) (sqrtF : ℚ → ℚ)
    (states : Fin n → ℚ) (τ : ℚ) : Fin n → ℚ :=
  fun i => states i + noise i * (sqrtF τ)⁻¹

end UKF

namespace Coin

/-- Error-monad embedding of `post_recursive`: the source body is a single
broadcast expression with no `raise`, no `try`, and no branch detecting a
failure, so its embedding returns normally on every input. -/
def post_recursive_run (prior : Pair) (y : Bool) : Except String Pair :=
  Except.ok
    (prior.1 + (if y then 1 else 0), prior.2 + (1 - (if y then 1 else 0)))

/-- Error-monad embedding of `post_batch` (same remark). -/
def post_batch_run (prior : Pair) (data : List Bool) :
    Except String Pair :=
  Except.ok (prior.1 + (data.count true : ℚ),
    prior.2 + ((data.length : ℚ) - (data.count true : ℚ)))

end Coin

namespace MCMC

/-- Error-monad embedding of the MCMC notebook's `MSE` (a one-line
arithmetic definition with no failure path). -/
def MSE_run (true_θ post_mean post_var : ℚ) : Except String ℚ :=
  Except.ok ((post_mean - true_θ) ^ 2 + post_var)

/-- Error-monad embedding of `LSSM_lump`: straight-line arithmetic
assignments, no `raise`/`try`/failure branch. -/
def LSSM_lump_run (sinF : ℚ → ℚ) (p : Params) (T : Fin 3 → ℚ) (t : ℚ) :
    Except String (Fin 3 → ℚ) :=
  Except.ok (LSSM_lump sinF p T t)

end MCMC

namespace UKF

/-- Error-monad embedding of the UKF notebook's `MSE`. -/
def MSE_run (true_θ post_mean post_var : ℚ) : Except String ℚ :=
  Except.ok ((post_mean - true_θ) ^ 2 + post_var)

/-- Error-monad embedding of `generate_data` (one arithmetic broadcast, no
failure path). -/
def generate_data_run (n : ℕ) (noise : Fin n → ℚ) (sqrtF : ℚ → ℚ)
    (states : Fin n → ℚ) (τ : ℚ) : Except String (Fin n → ℚ) :=
  Except.ok (fun i => states i + noise i * (sqrtF τ)⁻¹)

end UKF

/-- C7: no repository-defined helper implements error handling: the
error-monad embedding of each helper (`post_recursive`, `post_batch`, `MSE`
in both notebooks, `generate_data`, `LSSM_lump`) returns `Except.ok` of the
helper's value on every input of its declared type — never an error value. -/
theorem C7_no_error_handling :
    (∀ prior y, Coin.post_recursive_run prior y
        = Except.ok (Coin.post_recursive prior y)) ∧
    (∀ prior data, Coin.post_batch_run prior data
        = Except.ok (Coin.post_batch prior data)) ∧
    (∀ t m v, MCMC.MSE_run t m v = Except.ok (MCMC.MSE t m v)) ∧
    (∀ t m v, UKF.MSE_run t m v = Except.ok (UKF.MSE t m v)) ∧
    (∀ n noise sqrtF states τ, UKF.generate_data_run n noise sqrtF states τ
        = Except.ok (UKF.generate_data n noise sqrtF states τ)) ∧
    (∀ sinF p T t, MCMC.LSSM_lump_run sinF p T t
        = Except.ok (MCMC.LSSM_lump sinF p T t)) :=
  ⟨fun _ _ => rfl, fun _ _ => rfl, fun _ _ _ => rfl, fun _ _ _ => rfl,
    fun _ _ _ _ _ => rfl, fun _ _ _ _ => rfl⟩

/-- On a list of Booleans, the `true`s and `false`s together count the
length. -/
theorem count_true_add_count_false (data : List Bool) :
    data.count true + data.count false = data.length := by
  induction data with
  | nil => rfl
  | cons y ys ih => cases y <;> simp [List.count_cons] <;> omega

/-- C8: batch and recursive conjugate updating coincide: `post_batch` equals
the left fold of `post_recursive`, and both add the number of `true`
observations to `α` and the number of `false` observations to `β`. -/
theorem C8_batch_eq_fold_recursive (prior : Coin.Pair) (data : List Bool) :
    Coin.post_batch prior data = data.foldl Coin.post_recursive prior ∧
    Coin.post_batch prior data
      = (prior.1 + (data.count true : ℚ),
         prior.2 + (data.count false : ℚ)) := by
  constructor
  · induction data generalizing prior with
    | nil => simp [Coin.post_batch, Coin.post_recursive]
    | cons y ys ih =>
        rw [List.foldl_cons, ← ih]
        cases y <;>
          simp [Coin.post_batch, Coin.post_recursive, List.count_cons,
            Prod.ext_iff] <;>
          ring
  · have h := count_true_add_count_false data
    have hq : (data.count true : ℚ) + (data.count false : ℚ)
        = (data.length : ℚ) := by exact_mod_cast h
    have hsub : (data.length : ℚ) - (data.count true : ℚ)
        = (data.count false : ℚ) := by linarith
    unfold Coin.post_batch
    rw [hsub]

/-- C9: physical invariants of both constructed transition matrices
`a = I + Δt M⁻¹ K`: every row and column of `K` sums to zero; every row of
`a` sums to 1, so every uniform temperature vector is a fixed point of
`x ↦ a·x`; and `1ᵀ M a = 1ᵀ M`, so the total heat `1ᵀ M x` is conserved by
every noiseless step. -/
theorem C9_heat_conservation (k k12 k23 m1 m2 m3 Dt : ℚ)
    (h1 : m1 ≠ 0) (h2 : m2 ≠ 0) (h3 : m3 ≠ 0) :
    (∀ i, ∑ j, VB2.Kmat k i j = 0) ∧
    (∀ j, ∑ i, VB2.Kmat k i j = 0) ∧
    (∀ i, ∑ j, VB2.a k m1 m2 Dt i j = 1) ∧
    (∀ c : ℚ, (VB2.a k m1 m2 Dt).mulVec (fun _ => c) = fun _ => c) ∧
    (∀ j, ∑ i, ![m1, m2] i * VB2.a k m1 m2 Dt i j = ![m1, m2] j) ∧
    (∀ x : Fin 2 → ℚ, ∑ i, ![m1, m2] i * (VB2.a k m1 m2 Dt).mulVec x i
        = ∑ i, ![m1, m2] i * x i) ∧
    (∀ i, ∑ j, VB3.Kmat k12 k23 i j = 0) ∧
    (∀ j, ∑ i, VB3.Kmat k12 k23 i j = 0) ∧
    (∀ i, ∑ j, VB3.a k12 k23 m1 m2 m3 Dt i j = 1) ∧
    (∀ c : ℚ, (VB3.a k12 k23 m1 m2 m3 Dt).mulVec (fun _ => c)
        = fun _ => c) ∧
    (∀ j, ∑ i, ![m1, m2, m3] i * VB3.a k12 k23 m1 m2 m3 Dt i j
        = ![m1, m2, m3] j) ∧
    (∀ x : Fin 3 → ℚ,
        ∑ i, ![m1, m2, m3] i * (VB3.a k12 k23 m1 m2 m3 Dt).mulVec x i
        = ∑ i, ![m1, m2, m3] i * x i) := by
  refine ⟨?_, ?_, ?_, ?_, ?_, ?_, ?_, ?_, ?_, ?_, ?_, ?_⟩
  · intro i
    fin_cases i <;> simp [VB2.Kmat, Fin.sum_univ_two]
  · intro j
    fin_cases j <;> simp [VB2.Kmat, Fin.sum_univ_two]
  · intro i
    fin_cases i <;>
      simp [VB2.a, VB2.disc, VB2.Kmat, VB2.MconstInv, Matrix.mul_apply,
        Matrix.diagonal, Matrix.one_apply, Fin.sum_univ_two,
        Matrix.add_apply, Matrix.smul_apply] <;> ring
  · intro c
    funext i
    fin_cases i <;>
      simp [VB2.a, VB2.disc, VB2.Kmat, VB2.MconstInv, Matrix.mulVec,
        Matrix.dotProduct, Matrix.mul_apply, Matrix.diagonal,
        Matrix.one_apply, Fin.sum_univ_two, Matrix.add_apply,
        Matrix.smul_apply] <;> ring
  · intro j
    fin_cases j <;>
      simp [VB2.a, VB2.disc, VB2.Kmat, VB2.MconstInv, Matrix.mul_apply,
        Matrix.diagonal, Matrix.one_apply, Fin.sum_univ_two,
        Matrix.add_apply, Matrix.smul_apply] <;>
      field_simp <;> ring
  · intro x
    simp only [VB2.a, VB2.disc, VB2.Kmat, VB2.MconstInv, Matrix.mulVec,
      Matrix.dotProduct, Matrix.mul_apply, Matrix.diagonal,
      Matrix.one_apply, Fin.sum_univ_two, Matrix.add_apply,
      Matrix.smul_apply]
    field_simp
    ring
  · intro i
    fin_cases i <;> simp [VB3.Kmat, Fin.sum_univ_three] <;> ring
  · intro j
    fin_cases j <;> simp [VB3.Kmat, Fin.sum_univ_three] <;> ring
  · intro i
    fin_cases i <;>
      simp [VB3.a, VB3.disc, VB3.Kmat, VB3.MconstInv, Matrix.mul_apply,
        Matrix.diagonal, Matrix.one_apply, Fin.sum_univ_three,
        Matrix.add_apply, Matrix.smul_apply] <;> ring
  · intro c
    funext i
    fin_cases i <;>
      simp [VB3.a, VB3.disc, VB3.Kmat, VB3.MconstInv, Matrix.mulVec,
        Matrix.dotProduct, Matrix.mul_apply, Matrix.diagonal,
        Matrix.one_apply, Fin.sum_univ_three, Matrix.add_apply,
        Matrix.smul_apply] <;> ring
  · intro j
    fin_cases j <;>
      simp [VB3.a, VB3.disc, VB3.Kmat, VB3.MconstInv, Matrix.mul_apply,
        Matrix.diagonal, Matrix.one_apply, Fin.sum_univ_three,
        Matrix.add_apply, Matrix.smul_apply] <;>
      field_simp <;> ring
  · intro x
    simp [VB3.a, VB3.disc, VB3.Kmat, VB3.MconstInv, Matrix.mulVec,
      Matrix.dotProduct, Matrix.mul_apply, Matrix.diagonal,
      Matrix.one_apply, Fin.sum_univ_three, Matrix.add_apply,
      Matrix.smul_apply]
    field_simp
    ring

/-- Witness for C9 at the notebook's constants. -/
theorem C9_heat_conservation_witness :
    ((2000 : ℚ) ≠ 0 ∧ (1500 : ℚ) ≠ 0 ∧ (2500 : ℚ) ≠ 0) ∧
    (∀ i, ∑ j, VB2.a 5 2000 1500 1 i j = 1) ∧
    (∀ i, ∑ j, VB3.a 5 4 2000 1500 2500 1 i j = 1) := by
  have h := C9_heat_conservation 5 5 4 2000 1500 2500 1
    (by norm_num) (by norm_num) (by norm_num)
  exact ⟨⟨by norm_num, by norm_num, by norm_num⟩,
    h.2.2.1, h.2.2.2.2.2.2.2.2.1⟩

namespace Coin

/-- The left-to-right scan underlying Julia's `argmax` on a nonempty vector:
`argmaxPair x xs` returns the 1-based index and the value of the first
maximal element of `x :: xs` (the running best is replaced only by a
strictly greater element). -/
def argmaxPair (x : ℚ) : List ℚ → ℕ × ℚ
  | [] => (1, x)
  | y :: ys =>
      let p := argmaxPair y ys
      if x < p.2 then (p.1 + 1, p.2) else (1, x)

/-- Julia's `argmax` on a vector: the 1-based index of the first maximal
entry (`0` on the empty vector, on which Julia errors). -/
def argmax1 : List ℚ → ℕ
  | [] => 0
  | x :: xs => (argmaxPair x xs).1

/-- `choose_arm(posts)`: build the Beta posteriors, take their 97.5 %
quantiles `cred_int_tops`, and return `argmax`.  The third-party quantile
computation `quantile(Beta(post[1], post[2]), 0.975)` is abstracted as the
function parameter `q975`. -/
def choose_arm (q975 : Pair → ℚ) (posts : List Pair) : ℕ :=
  argmax1 (posts.map q975)

end Coin

/-- `argmaxPair x xs` returns a 1-based index into `x :: xs` whose entry is
its returned value, that value is a maximum of `x :: xs`, and every earlier
entry is strictly smaller. -/
theorem argmaxPair_spec (xs : List ℚ) : ∀ x : ℚ,
    1 ≤ (Coin.argmaxPair x xs).1 ∧
    (Coin.argmaxPair x xs).1 ≤ xs.length + 1 ∧
    (x :: xs).getD ((Coin.argmaxPair x xs).1 - 1) 0
      = (Coin.argmaxPair x xs).2 ∧
    (∀ j, j < xs.length + 1 →
      (x :: xs).getD j 0 ≤ (Coin.argmaxPair x xs).2) ∧
    (∀ j, j < (Coin.argmaxPair x xs).1 - 1 →
      (x :: xs).getD j 0 < (Coin.argmaxPair x xs).2) := by
  induction xs with
  | nil =>
      intro x
      refine ⟨le_refl 1, by simp [Coin.argmaxPair],
        by simp [Coin.argmaxPair], ?_, ?_⟩
      · intro j hj
        have hj0 : j = 0 := by simpa using hj
        subst hj0
        simp [Coin.argmaxPair]
      · intro j hj
        simp [Coin.argmaxPair] at hj
  | cons y ys ih =>
      intro x
      obtain ⟨h1, h2, h3, h4, h5⟩ := ih y
      by_cases hlt : x < (Coin.argmaxPair y ys).2
      · have hres : Coin.argmaxPair x (y :: ys)
            = ((Coin.argmaxPair y ys).1 + 1, (Coin.argmaxPair y ys).2) := by
          simp [Coin.argmaxPair, hlt]
        rw [hres]
        refine ⟨by omega, by simp; omega, ?_, ?_, ?_⟩
        · have hidx : (Coin.argmaxPair y ys).1 + 1 - 1
              = ((Coin.argmaxPair y ys).1 - 1) + 1 := by omega
          rw [hidx, List.getD_cons_succ]
          exact h3
        · intro j hj
          cases j with
          | zero => simpa using hlt.le
          | succ j' =>
              rw [List.getD_cons_succ]
              apply h4
              simp at hj
              omega
        · intro j hj
          cases j with
          | zero => simpa using hlt
          | succ j' =>
              rw [List.getD_cons_succ]
              apply h5
              omega
      · have hres : Coin.argmaxPair x (y :: ys) = (1, x) := by
          simp [Coin.argmaxPair, hlt]
        rw [hres]
        refine ⟨le_refl 1, by simp, by simp, ?_, ?_⟩
        · intro j hj
          cases j with
          | zero => simp
          | succ j' =>
              rw [List.getD_cons_succ]
              refine le_trans (h4 j' ?_) (not_lt.mp hlt)
              simp at hj
              omega
        · intro j hj
          omega

/-- C10: on a nonempty posterior list, `choose_arm` returns a 1-based index
between 1 and the number of arms; the 97.5 %-quantile at that index is
maximal among all arms; every strictly earlier arm has a strictly smaller
quantile (ties resolve to the first maximal arm); and equal inputs give
equal outputs. -/
theorem C10_choose_arm_first_max (q975 : Coin.Pair → ℚ)
    (posts : List Coin.Pair) (hne : posts ≠ []) :
    1 ≤ Coin.choose_arm q975 posts ∧
    Coin.choose_arm q975 posts ≤ posts.length ∧
    (∀ j, j < posts.length →
      (posts.map q975).getD j 0
        ≤ (posts.map q975).getD (Coin.choose_arm q975 posts - 1) 0) ∧
    (∀ j, j < Coin.choose_arm q975 posts - 1 →
      (posts.map q975).getD j 0
        < (posts.map q975).getD (Coin.choose_arm q975 posts - 1) 0) ∧
    (∀ posts', posts = posts' →
      Coin.choose_arm q975 posts = Coin.choose_arm q975 posts') := by
  cases posts with
  | nil => exact absurd rfl hne
  | cons p ps =>
      obtain ⟨h1, h2, h3, h4, h5⟩ := argmaxPair_spec (ps.map q975) (q975 p)
      have hmap : (p :: ps).map q975 = q975 p :: ps.map q975 := rfl
      have hca : Coin.choose_arm q975 (p :: ps)
          = (Coin.argmaxPair (q975 p) (ps.map q975)).1 := rfl
      refine ⟨?_, ?_, ?_, ?_, fun posts' hpp => by rw [hpp]⟩
      · rw [hca]; exact h1
      · rw [hca]; simpa using h2
      · intro j hj
        rw [hmap, hca, h3]
        apply h4
        simpa using hj
      · intro j hj
        rw [hmap, hca, h3]
        apply h5
        rw [hca] at hj
        exact hj

/-- Witness for C10 on the one-arm posterior list `[(1, 1)]` with the
quantile abstraction `Prod.fst`. -/
theorem C10_choose_arm_first_max_witness :
    ([((1 : ℚ), (1 : ℚ))] : List Coin.Pair) ≠ [] ∧
    1 ≤ Coin.choose_arm Prod.fst [(1, 1)] :=
  ⟨by simp, (C10_choose_arm_first_max Prod.fst [(1, 1)] (by simp)).1⟩
